import Mathlib

/-!
Verification of the epoch-synchronization core of `pcap2har`'s TLS flow
coordinator (`src/pcap2har/tls/flow.py`).

The `Flow` class coordinates cryptographic epochs of a bidirectional TLS
connection: each of its two `Direction`s independently observes
`ChangeCipherSpec` and calls `Flow.next_connstate(self)` to obtain its half
(`ConnStatePlex`) of the next epoch (`ConnStatePeriod`).  The rendezvous
protocol: the first caller of a transition allocates the new period and
installs it as both current and pending; the second caller takes its half
from the pending slot and clears it.

The modules `connectionstate.py` and `direction.py` are not part of the
available sources; the data entities they define are modelled from the
specification (see the doc comments below).  Python object identity, which
the code relies on (`asking_dir is self.fwd`, distinct `ConnStatePeriod`
objects), is modelled with explicit fresh numeric identities (`pid`,
`paramsId`, `dirId`): every allocation draws a fresh number from a counter
carried in the `Flow` state, so equality of identities coincides with
Python object identity.
-/

namespace Pcap2har

/-- One side of the bidirectional flow: the forward or the reverse half. -/
inductive Side where
  | fwd
  | rev
deriving DecidableEq, Repr

/-- Modelled from the spec: `ConnectionStateParams` (from the missing
`connectionstate` module) is a builder-like holder of negotiated crypto
parameters, created empty and reset to a fresh empty instance when an epoch
transition begins.  Its contents are opaque to the coordinator; only its
object identity matters here, tracked by `paramsId`. -/
structure ConnectionStateParams where
  paramsId : Nat
deriving DecidableEq, Repr

/-- Modelled from the spec: `ConnStatePeriod` (from the missing
`connectionstate` module) is one epoch.  It holds a forward and a reverse
`ConnStatePlex` and a back-reference to the epoch it supersedes (`none` for
the first epoch).  Object identity is tracked by `pid`; the two plexes of a
period `p` are represented as `⟨p.pid, Side.fwd⟩` and `⟨p.pid, Side.rev⟩`,
so `prev` stores the predecessor's `pid`. -/
structure ConnStatePeriod where
  pid : Nat
  prev : Option Nat
deriving DecidableEq, Repr

/-- Modelled from the spec: `ConnStatePlex` (from the missing
`connectionstate` module) is one direction's half of one epoch's crypto
state, immutable after construction; it is identified by its owning
period's `pid` and its side within that period. -/
structure ConnStatePlex where
  period : Nat
  side : Side
deriving DecidableEq, Repr

/-- Modelled from the spec: a `Direction` (from the missing `direction`
module) owns one half of the TCP stream and holds the `ConnStatePlex` it
currently decrypts with, installed by `on_change_cipher_spec`.  Object
identity is tracked by `dirId`; the byte-stream machinery is external and
carries no epoch state. -/
structure Direction where
  dirId : Nat
  connstate : Option ConnStatePlex
deriving DecidableEq, Repr

/-- The epoch-coordination state of `tls.Flow` (`src/pcap2har/tls/flow.py`).
Fields `fwd`, `rev`, `connstate`, `pending_connstate`, `pending_params` and
`old_states` are the Python members of the same names; the external
`tcpflow` member carries no epoch state and is omitted.  `nextPid` and
`nextParamsId` are the fresh-identity supplies standing in for Python
object allocation: every `ConnStatePeriod` ever constructed takes the
current `nextPid` (so `nextPid` counts the periods created so far), and
every `ConnectionStateParams` takes the current `nextParamsId`. -/
structure Flow where
  fwd : Direction
  rev : Direction
  connstate : Option ConnStatePeriod
  pending_connstate : Option ConnStatePeriod
  pending_params : ConnectionStateParams
  old_states : List ConnStatePeriod
  nextPid : Nat
  nextParamsId : Nat
deriving DecidableEq, Repr

/-- The helper closure `right_plex` inside `Flow.next_connstate`
(`flow.py` lines 77-80): the fwd plex if the asking direction is `self.fwd`,
the rev plex otherwise, taken from the given period. -/
def right_plex (f : Flow) (asking_dir : Nat) (p : ConnStatePeriod) : ConnStatePlex :=
  if asking_dir = f.fwd.dirId then ⟨p.pid, Side.fwd⟩ else ⟨p.pid, Side.rev⟩

/-- `Flow.next_connstate` (`flow.py` lines 67-95).  The Python
`assert(asking_dir in (self.fwd, self.rev))` is modelled as `Except.error`
(an `AssertionError` aborts the call); the truthiness test
`if self.pending_connstate:` is the `match` on the option.  In the fresh
branch the new period is `ConnStatePeriod(self.connstate)` — a freshly
allocated period whose predecessor is the current epoch — the old current
epoch (when it exists) is appended to `old_states`, the new period becomes
both current and pending, and `pending_params` is replaced by a freshly
allocated `ConnectionStateParams(None)`. -/
def Flow.next_connstate (f : Flow) (asking_dir : Nat) :
    Except String (ConnStatePlex × Flow) :=
  if asking_dir = f.fwd.dirId ∨ asking_dir = f.rev.dirId then
    match f.pending_connstate with
    | some p =>
        Except.ok (right_plex f asking_dir p, { f with pending_connstate := none })
    | none =>
        let newPeriod : ConnStatePeriod :=
          ⟨f.nextPid, f.connstate.map ConnStatePeriod.pid⟩
        let olds : List ConnStatePeriod :=
          match f.connstate with
          | some c => f.old_states ++ [c]
          | none => f.old_states
        let f' : Flow :=
          { f with
            pending_connstate := some newPeriod
            connstate := some newPeriod
            old_states := olds
            pending_params := ⟨f.nextParamsId⟩
            nextPid := f.nextPid + 1
            nextParamsId := f.nextParamsId + 1 }
        Except.ok (right_plex f asking_dir newPeriod, f')
  else
    Except.error "AssertionError"

/-- Modelled from the spec: `Direction.on_change_cipher_spec` (from the
missing `direction` module) fetches the direction's next `ConnStatePlex`
via `Flow.next_connstate(self)` and installs it as the direction's current
plex.  Here it is given the flow and which owned side is acting. -/
def Flow.on_change_cipher_spec (f : Flow) (s : Side) : Except String Flow :=
  let d : Direction := match s with | Side.fwd => f.fwd | Side.rev => f.rev
  match f.next_connstate d.dirId with
  | Except.ok (plex, f') =>
      match s with
      | Side.fwd => Except.ok { f' with fwd := { f'.fwd with connstate := some plex } }
      | Side.rev => Except.ok { f' with rev := { f'.rev with connstate := some plex } }
  | Except.error e => Except.error e

/-- The epoch-relevant state set up by `Flow.__init__` (`flow.py` lines
47-60) before the two seeding calls: `pending_params` is a freshly
allocated `ConnectionStateParams(None)`, `connstate` and
`pending_connstate` are `None`, `old_states` is empty, and the two
Directions are freshly created with no current plex.  The direction
identities 0 and 1 are distinct, as distinct Python objects are. -/
def Flow.mk0 : Flow :=
  { fwd := ⟨0, none⟩
    rev := ⟨1, none⟩
    connstate := none
    pending_connstate := none
    pending_params := ⟨0⟩
    old_states := []
    nextPid := 0
    nextParamsId := 1 }

/-- `Flow.__init__` (`flow.py` lines 47-60): after setting up the empty
state it runs `self.fwd.on_change_cipher_spec()` then
`self.rev.on_change_cipher_spec()` to seed the first epoch. -/
def Flow.init : Except String Flow := do
  let f1 ← Flow.mk0.on_change_cipher_spec Side.fwd
  f1.on_change_cipher_spec Side.rev

/-- The concrete flow state produced by `Flow.init`. -/
def initFlow : Flow :=
  { fwd := ⟨0, some ⟨0, Side.fwd⟩⟩
    rev := ⟨1, some ⟨0, Side.rev⟩⟩
    connstate := some ⟨0, none⟩
    pending_connstate := none
    pending_params := ⟨1⟩
    old_states := []
    nextPid := 1
    nextParamsId := 2 }

lemma init_spec : Flow.init = Except.ok initFlow := rfl

/-- Running a list of `next_connstate` calls in sequence, pairing each
caller's identity with the plex returned to it. -/
def Flow.runCalls (f : Flow) :
    List Nat → Except String (List (Nat × ConnStatePlex) × Flow)
  | [] => Except.ok ([], f)
  | d :: ds =>
      match f.next_connstate d with
      | Except.ok (plex, f1) =>
          match f1.runCalls ds with
          | Except.ok (res, f2) => Except.ok ((d, plex) :: res, f2)
          | Except.error e => Except.error e
      | Except.error e => Except.error e

/-- The state produced by the fresh branch of `next_connstate` (pending slot
was empty): names the record literal that branch builds, for use in proofs. -/
def freshStep (f : Flow) : Flow :=
  { f with
    pending_connstate := some ⟨f.nextPid, f.connstate.map ConnStatePeriod.pid⟩
    connstate := some ⟨f.nextPid, f.connstate.map ConnStatePeriod.pid⟩
    old_states := match f.connstate with
      | some c => f.old_states ++ [c]
      | none => f.old_states
    pending_params := ⟨f.nextParamsId⟩
    nextPid := f.nextPid + 1
    nextParamsId := f.nextParamsId + 1 }

/-- The state produced by the pending branch of `next_connstate`. -/
def clearPending (f : Flow) : Flow :=
  { f with pending_connstate := none }

lemma next_connstate_unowned (f : Flow) (d : Nat)
    (h : ¬(d = f.fwd.dirId ∨ d = f.rev.dirId)) :
    f.next_connstate d = Except.error "AssertionError" := by
  rw [Flow.next_connstate, if_neg h]

lemma next_connstate_pending (f : Flow) (d : Nat) (p : ConnStatePeriod)
    (hd : d = f.fwd.dirId ∨ d = f.rev.dirId)
    (hp : f.pending_connstate = some p) :
    f.next_connstate d = Except.ok (right_plex f d p, clearPending f) := by
  rw [Flow.next_connstate, if_pos hd, hp]
  rfl

lemma next_connstate_fresh (f : Flow) (d : Nat)
    (hd : d = f.fwd.dirId ∨ d = f.rev.dirId)
    (hp : f.pending_connstate = none) :
    f.next_connstate d =
      Except.ok (right_plex f d ⟨f.nextPid, f.connstate.map ConnStatePeriod.pid⟩,
        freshStep f) := by
  rw [Flow.next_connstate, if_pos hd, hp]
  rfl

lemma runCalls_cons_ok (f : Flow) (d : Nat) (ds : List Nat)
    (r : ConnStatePlex) (f1 : Flow) (res : List (Nat × ConnStatePlex)) (f2 : Flow)
    (h1 : f.next_connstate d = Except.ok (r, f1))
    (h2 : f1.runCalls ds = Except.ok (res, f2)) :
    f.runCalls (d :: ds) = Except.ok ((d, r) :: res, f2) := by
  rw [Flow.runCalls, h1]
  show (match f1.runCalls ds with
    | Except.ok (res, f2) => Except.ok ((d, r) :: res, f2)
    | Except.error e => Except.error e) = _
  rw [h2]

/-- C7: a call `next_connstate(d)` with `d` neither of the Flow's two owned
Directions fails the `assert` at `flow.py` line 75: it neither returns a
plex nor mutates the Flow (the call aborts with `AssertionError`). -/
theorem unknown_direction_asserts (f : Flow) (d : Nat)
    (h1 : d ≠ f.fwd.dirId) (h2 : d ≠ f.rev.dirId) :
    f.next_connstate d = Except.error "AssertionError" := by
  apply next_connstate_unowned
  rintro (h | h)
  · exact h1 h
  · exact h2 h

theorem unknown_direction_asserts_witness :
    (5 ≠ Flow.mk0.fwd.dirId ∧ 5 ≠ Flow.mk0.rev.dirId) ∧
    Flow.mk0.next_connstate 5 = Except.error "AssertionError" :=
  ⟨by decide, unknown_direction_asserts Flow.mk0 5 (by decide) (by decide)⟩

/-- C1: with the pending slot empty, `next_connstate(d)` for an owned
direction `d` builds a new `ConnStatePeriod` whose predecessor is the
current epoch, appends the old current epoch to `old_states` exactly when
one existed, installs the new period as both current and pending, replaces
`pending_params` with a freshly allocated empty holder, and returns `d`'s
plex of the new period (`flow.py` lines 86-94). -/
theorem first_caller_creates_period (f : Flow) (d : Nat)
    (hd : d = f.fwd.dirId ∨ d = f.rev.dirId)
    (hp : f.pending_connstate = none)
    (hpar : f.pending_params.paramsId < f.nextParamsId) :
    ∃ r f', f.next_connstate d = Except.ok (r, f') ∧
      f'.connstate = some ⟨f.nextPid, f.connstate.map ConnStatePeriod.pid⟩ ∧
      f'.pending_connstate = f'.connstate ∧
      (∀ c, f.connstate = some c → f'.old_states = f.old_states ++ [c]) ∧
      (f.connstate = none → f'.old_states = f.old_states) ∧
      f'.pending_params = ⟨f.nextParamsId⟩ ∧
      f'.pending_params ≠ f.pending_params ∧
      r = (if d = f.fwd.dirId then (⟨f.nextPid, Side.fwd⟩ : ConnStatePlex)
           else ⟨f.nextPid, Side.rev⟩) := by
  refine ⟨_, _, next_connstate_fresh f d hd hp, rfl, rfl, ?_, ?_, rfl, ?_, rfl⟩
  · intro c hc
    simp only [freshStep, hc]
  · intro hc
    simp only [freshStep, hc]
  · intro hcontra
    have h := congrArg ConnectionStateParams.paramsId hcontra
    simp only [freshStep] at h
    omega

theorem first_caller_creates_period_witness :
    ((0 = Flow.mk0.fwd.dirId ∨ 0 = Flow.mk0.rev.dirId) ∧
      Flow.mk0.pending_connstate = none ∧
      Flow.mk0.pending_params.paramsId < Flow.mk0.nextParamsId) ∧
    (∃ r f', Flow.mk0.next_connstate 0 = Except.ok (r, f') ∧
      f'.connstate = some ⟨Flow.mk0.nextPid, Flow.mk0.connstate.map ConnStatePeriod.pid⟩ ∧
      f'.pending_connstate = f'.connstate ∧
      (∀ c, Flow.mk0.connstate = some c → f'.old_states = Flow.mk0.old_states ++ [c]) ∧
      (Flow.mk0.connstate = none → f'.old_states = Flow.mk0.old_states) ∧
      f'.pending_params = ⟨Flow.mk0.nextParamsId⟩ ∧
      f'.pending_params ≠ Flow.mk0.pending_params ∧
      r = (if 0 = Flow.mk0.fwd.dirId then (⟨Flow.mk0.nextPid, Side.fwd⟩ : ConnStatePlex)
           else ⟨Flow.mk0.nextPid, Side.rev⟩)) :=
  ⟨⟨Or.inl rfl, rfl, by decide⟩,
    first_caller_creates_period Flow.mk0 0 (Or.inl rfl) rfl (by decide)⟩

/-- C2: with the pending slot non-empty, `next_connstate(d)` for an owned
direction `d` returns `d`'s plex of the pending period, clears the pending
slot, and leaves the current epoch, `old_states` and `pending_params`
unchanged (`flow.py` lines 83-85). -/
theorem second_caller_takes_pending (f : Flow) (d : Nat) (p : ConnStatePeriod)
    (hd : d = f.fwd.dirId ∨ d = f.rev.dirId)
    (hp : f.pending_connstate = some p) :
    ∃ f', f.next_connstate d =
        Except.ok ((if d = f.fwd.dirId then (⟨p.pid, Side.fwd⟩ : ConnStatePlex)
          else ⟨p.pid, Side.rev⟩), f') ∧
      f'.pending_connstate = none ∧
      f'.connstate = f.connstate ∧
      f'.old_states = f.old_states ∧
      f'.pending_params = f.pending_params ∧
      f'.fwd = f.fwd ∧ f'.rev = f.rev :=
  ⟨_, next_connstate_pending f d p hd hp, rfl, rfl, rfl, rfl, rfl, rfl⟩

/-- The flow state after the very first `next_connstate` call of `Flow.mk0`
(the state in which a transition is half-complete). -/
def midFlow : Flow :=
  { fwd := ⟨0, none⟩
    rev := ⟨1, none⟩
    connstate := some ⟨0, none⟩
    pending_connstate := some ⟨0, none⟩
    pending_params := ⟨1⟩
    old_states := []
    nextPid := 1
    nextParamsId := 2 }

theorem second_caller_takes_pending_witness :
    ((1 = midFlow.fwd.dirId ∨ 1 = midFlow.rev.dirId) ∧
      midFlow.pending_connstate = some ⟨0, none⟩) ∧
    (∃ f', midFlow.next_connstate 1 =
        Except.ok ((if 1 = midFlow.fwd.dirId then
            (⟨(ConnStatePeriod.mk 0 none).pid, Side.fwd⟩ : ConnStatePlex)
          else ⟨(ConnStatePeriod.mk 0 none).pid, Side.rev⟩), f') ∧
      f'.pending_connstate = none ∧
      f'.connstate = midFlow.connstate ∧
      f'.old_states = midFlow.old_states ∧
      f'.pending_params = midFlow.pending_params ∧
      f'.fwd = midFlow.fwd ∧ f'.rev = midFlow.rev) :=
  ⟨⟨Or.inr rfl, rfl⟩,
    second_caller_takes_pending midFlow 1 ⟨0, none⟩ (Or.inr rfl) rfl⟩

/-- C5: immediately after `Flow.__init__` (which calls
`on_change_cipher_spec` once on each Direction), both Directions hold a
current plex, the two plexes are the fwd and rev halves of the same first
period (pid 0), that period is the current epoch, `old_states` is empty,
the pending slot is cleared, and exactly one period was created
(`nextPid = 1`). -/
theorem first_epoch_bootstrap :
    Flow.init = Except.ok initFlow ∧
    initFlow.fwd.connstate = some ⟨0, Side.fwd⟩ ∧
    initFlow.rev.connstate = some ⟨0, Side.rev⟩ ∧
    initFlow.connstate = some ⟨0, none⟩ ∧
    initFlow.old_states = [] ∧
    initFlow.pending_connstate = none ∧
    initFlow.nextPid = 1 :=
  ⟨init_spec, rfl, rfl, rfl, rfl, rfl, rfl⟩

/-- C9: the pending slot (an option, so it holds at most one in-flight
period by construction) is empty at construction start, and every
successful `next_connstate` call toggles it: it becomes occupied exactly
when the call found it empty, and is cleared by the next call.  Hence it is
non-empty exactly between the first and second call of a transition. -/
theorem pending_slot_lifecycle (f : Flow) (d : Nat) (r : ConnStatePlex) (f' : Flow)
    (h : f.next_connstate d = Except.ok (r, f')) :
    (f'.pending_connstate.isSome ↔ f.pending_connstate = none) ∧
    Flow.mk0.pending_connstate = none ∧
    initFlow.pending_connstate = none := by
  refine ⟨?_, rfl, rfl⟩
  by_cases hd : d = f.fwd.dirId ∨ d = f.rev.dirId
  · cases hp : f.pending_connstate with
    | some p =>
        rw [next_connstate_pending f d p hd hp] at h
        simp only [Except.ok.injEq, Prod.mk.injEq] at h
        rw [← h.2]
        simp [clearPending, hp]
    | none =>
        rw [next_connstate_fresh f d hd hp] at h
        simp only [Except.ok.injEq, Prod.mk.injEq] at h
        rw [← h.2]
        simp [freshStep, hp]
  · rw [next_connstate_unowned f d hd] at h
    exact absurd h (by simp)

theorem pending_slot_lifecycle_witness :
    Flow.mk0.next_connstate 0 = Except.ok (⟨0, Side.fwd⟩, midFlow) ∧
    ((midFlow.pending_connstate.isSome ↔ Flow.mk0.pending_connstate = none) ∧
      Flow.mk0.pending_connstate = none ∧
      initFlow.pending_connstate = none) :=
  ⟨rfl, pending_slot_lifecycle Flow.mk0 0 ⟨0, Side.fwd⟩ midFlow rfl⟩

lemma fwd_first_call (f : Flow) (hp : f.pending_connstate = none) :
    f.next_connstate f.fwd.dirId =
      Except.ok ((⟨f.nextPid, Side.fwd⟩ : ConnStatePlex), freshStep f) := by
  rw [next_connstate_fresh f f.fwd.dirId (Or.inl rfl) hp]
  simp [right_plex]

lemma rev_first_call (f : Flow) (hp : f.pending_connstate = none)
    (hab : f.fwd.dirId ≠ f.rev.dirId) :
    f.next_connstate f.rev.dirId =
      Except.ok ((⟨f.nextPid, Side.rev⟩ : ConnStatePlex), freshStep f) := by
  rw [next_connstate_fresh f f.rev.dirId (Or.inr rfl) hp]
  simp only [right_plex]
  rw [if_neg (fun hcontra => hab hcontra.symm)]

lemma fwd_second_call (f : Flow) :
    (freshStep f).next_connstate f.fwd.dirId =
      Except.ok ((⟨f.nextPid, Side.fwd⟩ : ConnStatePlex),
        clearPending (freshStep f)) := by
  rw [next_connstate_pending (freshStep f) f.fwd.dirId
    ⟨f.nextPid, f.connstate.map ConnStatePeriod.pid⟩ (Or.inl rfl) rfl]
  simp [right_plex, freshStep]

lemma rev_second_call (f : Flow)
    (hab : f.fwd.dirId ≠ f.rev.dirId) :
    (freshStep f).next_connstate f.rev.dirId =
      Except.ok ((⟨f.nextPid, Side.rev⟩ : ConnStatePlex),
        clearPending (freshStep f)) := by
  rw [next_connstate_pending (freshStep f) f.rev.dirId
    ⟨f.nextPid, f.connstate.map ConnStatePeriod.pid⟩ (Or.inr rfl) rfl]
  simp only [right_plex]
  rw [if_neg (fun hcontra => hab hcontra.symm)]

/-- C4: the assignment of plexes to directions is order-insensitive.  From
any state with an empty pending slot, running the transition with the
forward Direction calling first gives the forward Direction the period's
fwd plex and the reverse Direction its rev plex — and the run with the
reverse Direction calling first yields the same pairing and the identical
final Flow state. -/
theorem rendezvous_order_insensitive (f : Flow)
    (hp : f.pending_connstate = none) (hab : f.fwd.dirId ≠ f.rev.dirId) :
    ∃ f' : Flow,
      f.runCalls [f.fwd.dirId, f.rev.dirId] =
        Except.ok ([(f.fwd.dirId, ⟨f.nextPid, Side.fwd⟩),
                    (f.rev.dirId, ⟨f.nextPid, Side.rev⟩)], f') ∧
      f.runCalls [f.rev.dirId, f.fwd.dirId] =
        Except.ok ([(f.rev.dirId, ⟨f.nextPid, Side.rev⟩),
                    (f.fwd.dirId, ⟨f.nextPid, Side.fwd⟩)], f') := by
  refine ⟨clearPending (freshStep f), ?_, ?_⟩
  · exact runCalls_cons_ok _ _ _ _ _ _ _ (fwd_first_call f hp)
      (runCalls_cons_ok _ _ _ _ _ _ _ (rev_second_call f hab) rfl)
  · exact runCalls_cons_ok _ _ _ _ _ _ _ (rev_first_call f hp hab)
      (runCalls_cons_ok _ _ _ _ _ _ _ (fwd_second_call f) rfl)

theorem rendezvous_order_insensitive_witness :
    (initFlow.pending_connstate = none ∧ initFlow.fwd.dirId ≠ initFlow.rev.dirId) ∧
    (∃ f' : Flow,
      initFlow.runCalls [initFlow.fwd.dirId, initFlow.rev.dirId] =
        Except.ok ([(initFlow.fwd.dirId, ⟨initFlow.nextPid, Side.fwd⟩),
                    (initFlow.rev.dirId, ⟨initFlow.nextPid, Side.rev⟩)], f') ∧
      initFlow.runCalls [initFlow.rev.dirId, initFlow.fwd.dirId] =
        Except.ok ([(initFlow.rev.dirId, ⟨initFlow.nextPid, Side.rev⟩),
                    (initFlow.fwd.dirId, ⟨initFlow.nextPid, Side.fwd⟩)], f')) :=
  ⟨⟨rfl, by decide⟩, rendezvous_order_insensitive initFlow rfl (by decide)⟩

/-- A call sequence that alternates correctly between the two direction
identities `a` and `b`: a run of completed transitions, each consisting of
the two owned directions in either order, possibly ending with a lone first
call of an incomplete transition. -/
inductive Alt (a b : Nat) : List Nat → Prop where
  | nil : Alt a b []
  | single (d : Nat) (hd : d = a ∨ d = b) : Alt a b [d]
  | pair (d e : Nat) (rest : List Nat)
      (hde : (d = a ∧ e = b) ∨ (d = b ∧ e = a))
      (h : Alt a b rest) : Alt a b (d :: e :: rest)

/-- The caller/plex pairs an alternating run produces: the `k`-th
transition uses the period with pid `pid0 + k`, and each caller receives
the fwd side exactly when it is direction `a` (the forward direction). -/
def altRes (a : Nat) : Nat → List Nat → List (Nat × ConnStatePlex)
  | _, [] => []
  | pid0, [d] => [(d, ⟨pid0, if d = a then Side.fwd else Side.rev⟩)]
  | pid0, d :: e :: rest =>
      (d, ⟨pid0, if d = a then Side.fwd else Side.rev⟩) ::
      (e, ⟨pid0, if e = a then Side.fwd else Side.rev⟩) ::
      altRes a (pid0 + 1) rest

lemma runCalls_alt (a b : Nat) (hab : a ≠ b) :
    ∀ (ds : List Nat), Alt a b ds →
    ∀ f : Flow, f.fwd.dirId = a → f.rev.dirId = b → f.pending_connstate = none →
    ∃ f', f.runCalls ds = Except.ok (altRes a f.nextPid ds, f') ∧
      f'.nextPid = f.nextPid + (ds.length + 1) / 2 ∧
      f'.fwd = f.fwd ∧ f'.rev = f.rev ∧
      (ds.length % 2 = 0 → f'.pending_connstate = none) := by
  intro ds h
  induction h with
  | nil =>
      intro f ha hb hp
      exact ⟨f, rfl, by simp, rfl, rfl, fun _ => hp⟩
  | single d hd =>
      intro f ha hb hp
      subst ha
      subst hb
      rcases hd with hd | hd
      · subst hd
        refine ⟨freshStep f, ?_, by simp [freshStep], rfl, rfl, ?_⟩
        · rw [runCalls_cons_ok f f.fwd.dirId [] ⟨f.nextPid, Side.fwd⟩ (freshStep f)
            [] (freshStep f) (fwd_first_call f hp) rfl]
          simp [altRes]
        · intro hco
          simp at hco
      · subst hd
        refine ⟨freshStep f, ?_, by simp [freshStep], rfl, rfl, ?_⟩
        · rw [runCalls_cons_ok f f.rev.dirId [] ⟨f.nextPid, Side.rev⟩ (freshStep f)
            [] (freshStep f) (rev_first_call f hp hab) rfl]
          simp [altRes, hab.symm]
        · intro hco
          simp at hco
  | pair d e rest hde hrest ih =>
      intro f ha hb hp
      subst ha
      subst hb
      have hfix : (clearPending (freshStep f)).fwd.dirId = f.fwd.dirId := rfl
      have hfix2 : (clearPending (freshStep f)).rev.dirId = f.rev.dirId := rfl
      obtain ⟨f3, hrun3, hnext3, hfwd3, hrev3, hmod3⟩ :=
        ih (clearPending (freshStep f)) hfix hfix2 rfl
      have hnp : (clearPending (freshStep f)).nextPid = f.nextPid + 1 := rfl
      rw [hnp] at hrun3
      rcases hde with ⟨hd, he⟩ | ⟨hd, he⟩
      · subst hd
        subst he
        refine ⟨f3, ?_, ?_, hfwd3, hrev3, ?_⟩
        · rw [runCalls_cons_ok f f.fwd.dirId (f.rev.dirId :: rest) ⟨f.nextPid, Side.fwd⟩
            (freshStep f) ((f.rev.dirId, ⟨f.nextPid, Side.rev⟩) ::
              altRes f.fwd.dirId (f.nextPid + 1) rest) f3
            (fwd_first_call f hp)
            (runCalls_cons_ok (freshStep f) f.rev.dirId rest ⟨f.nextPid, Side.rev⟩
              (clearPending (freshStep f)) (altRes f.fwd.dirId (f.nextPid + 1) rest) f3
              (rev_second_call f hab) hrun3)]
          simp [altRes, hab.symm]
        · rw [hnext3, hnp]
          simp only [List.length_cons]
          omega
        · intro _
          apply hmod3
          simp only [List.length_cons] at *
          omega
      · subst hd
        subst he
        refine ⟨f3, ?_, ?_, hfwd3, hrev3, ?_⟩
        · rw [runCalls_cons_ok f f.rev.dirId (f.fwd.dirId :: rest) ⟨f.nextPid, Side.rev⟩
            (freshStep f) ((f.fwd.dirId, ⟨f.nextPid, Side.fwd⟩) ::
              altRes f.fwd.dirId (f.nextPid + 1) rest) f3
            (rev_first_call f hp hab)
            (runCalls_cons_ok (freshStep f) f.fwd.dirId rest ⟨f.nextPid, Side.fwd⟩
              (clearPending (freshStep f)) (altRes f.fwd.dirId (f.nextPid + 1) rest) f3
              (fwd_second_call f) hrun3)]
          simp [altRes, hab.symm]
        · rw [hnext3, hnp]
          simp only [List.length_cons]
          omega
        · intro _
          apply hmod3
          simp only [List.length_cons] at *
          omega

lemma altRes_period_lb (a : Nat) : (pid0 : Nat) → (ds : List Nat) →
    ∀ q ∈ altRes a pid0 ds, pid0 ≤ q.2.period
  | _, [], q, hq => by simp [altRes] at hq
  | pid0, [d], q, hq => by
      simp only [altRes, List.mem_singleton] at hq
      subst hq
      simp
  | pid0, d :: e :: rest, q, hq => by
      simp only [altRes, List.mem_cons] at hq
      rcases hq with h | h | h
      · subst h; simp
      · subst h; simp
      · have := altRes_period_lb a (pid0 + 1) rest q h
        omega

lemma altRes_side (a b : Nat) (hab : a ≠ b) {ds : List Nat} (h : Alt a b ds) :
    ∀ (pid0 : Nat), ∀ q ∈ altRes a pid0 ds,
      (q.2.side = Side.fwd ↔ q.1 = a) ∧ (q.2.side = Side.rev ↔ q.1 = b) := by
  induction h with
  | nil =>
      intro pid0 q hq
      simp [altRes] at hq
  | single d hd =>
      intro pid0 q hq
      simp only [altRes, List.mem_singleton] at hq
      subst hq
      rcases hd with hd | hd
      · subst hd; simp [hab]
      · subst hd; simp [Ne.symm hab]
  | pair d e rest hde hrest ih =>
      intro pid0 q hq
      simp only [altRes, List.mem_cons] at hq
      rcases hq with h1 | h1 | h1
      · subst h1
        rcases hde with ⟨hd, _⟩ | ⟨hd, _⟩
        · subst hd; simp [hab]
        · subst hd; simp [Ne.symm hab]
      · subst h1
        rcases hde with ⟨_, he⟩ | ⟨_, he⟩
        · subst he; simp [Ne.symm hab]
        · subst he; simp [hab]
      · exact ih (pid0 + 1) q h1

lemma altRes_nodup (a b : Nat) (hab : a ≠ b) {ds : List Nat} (h : Alt a b ds) :
    ∀ (pid0 : Nat), ((altRes a pid0 ds).map Prod.snd).Nodup := by
  induction h with
  | nil => intro pid0; simp [altRes]
  | single d hd => intro pid0; simp [altRes]
  | pair d e rest hde hrest ih =>
      intro pid0
      simp only [altRes, List.map_cons, List.nodup_cons, List.mem_cons, List.mem_map]
      refine ⟨?_, ?_, ih (pid0 + 1)⟩
      · rintro (h1 | ⟨q, hq, hq2⟩)
        · rcases hde with ⟨hd, he⟩ | ⟨hd, he⟩
          · subst hd; subst he
            simp [hab, Ne.symm hab] at h1
          · subst hd; subst he
            simp [hab, Ne.symm hab] at h1
        · have hlb := altRes_period_lb a (pid0 + 1) rest q hq
          have : (⟨pid0, if d = a then Side.fwd else Side.rev⟩ : ConnStatePlex).period =
              q.2.period := by rw [hq2]
          simp at this
          omega
      · rintro ⟨q, hq, hq2⟩
        have hlb := altRes_period_lb a (pid0 + 1) rest q hq
        have : (⟨pid0, if e = a then Side.fwd else Side.rev⟩ : ConnStatePlex).period =
            q.2.period := by rw [hq2]
        simp at this
        omega

lemma altRes_mem (a b : Nat) (hab : a ≠ b) {ds : List Nat} (h : Alt a b ds) :
    ∀ (pid0 k : Nat), k < ds.length / 2 →
      (a, (⟨pid0 + k, Side.fwd⟩ : ConnStatePlex)) ∈ altRes a pid0 ds ∧
      (b, (⟨pid0 + k, Side.rev⟩ : ConnStatePlex)) ∈ altRes a pid0 ds := by
  induction h with
  | nil =>
      intro pid0 k hk
      simp only [List.length_nil] at hk
      omega
  | single d hd =>
      intro pid0 k hk
      simp only [List.length_singleton] at hk
      omega
  | pair d e rest hde hrest ih =>
      intro pid0 k hk
      simp only [List.length_cons] at hk
      cases k with
      | zero =>
          rcases hde with ⟨hd, he⟩ | ⟨hd, he⟩
          · subst hd; subst he
            constructor
            · simp [altRes]
            · simp [altRes, Ne.symm hab]
          · subst hd; subst he
            constructor
            · simp [altRes]
            · simp [altRes, Ne.symm hab]
      | succ j =>
          have h2 := ih (pid0 + 1) j (by omega)
          have harith : pid0 + (j + 1) = pid0 + 1 + j := by omega
          rw [harith]
          exact ⟨List.mem_cons_of_mem _ (List.mem_cons_of_mem _ h2.1),
            List.mem_cons_of_mem _ (List.mem_cons_of_mem _ h2.2)⟩

/-- C3: for any correctly alternating sequence of `n` `next_connstate`
calls (each transition claimed once by each direction, in either order),
the number of `ConnStatePeriod` objects created is `⌈n/2⌉` — `nextPid` is
the allocation counter, so its increase counts the distinct periods
created — and the plexes are handed out correctly: a returned fwd plex
goes only to the forward direction and a rev plex only to the reverse
direction, no plex is returned twice, and for every completed transition
`k` both halves of period `nextPid + k` are delivered. -/
theorem alternating_exactly_two_per_epoch (f : Flow) (ds : List Nat)
    (halt : Alt f.fwd.dirId f.rev.dirId ds)
    (hab : f.fwd.dirId ≠ f.rev.dirId)
    (hp : f.pending_connstate = none) :
    ∃ res f', f.runCalls ds = Except.ok (res, f') ∧
      f'.nextPid = f.nextPid + (ds.length + 1) / 2 ∧
      (∀ q ∈ res, (q.2.side = Side.fwd ↔ q.1 = f.fwd.dirId) ∧
        (q.2.side = Side.rev ↔ q.1 = f.rev.dirId)) ∧
      (res.map Prod.snd).Nodup ∧
      (∀ k, k < ds.length / 2 →
        (f.fwd.dirId, (⟨f.nextPid + k, Side.fwd⟩ : ConnStatePlex)) ∈ res ∧
        (f.rev.dirId, (⟨f.nextPid + k, Side.rev⟩ : ConnStatePlex)) ∈ res) := by
  obtain ⟨f', hrun, hnext, _, _, _⟩ :=
    runCalls_alt f.fwd.dirId f.rev.dirId hab ds halt f rfl rfl hp
  refine ⟨altRes f.fwd.dirId f.nextPid ds, f', hrun, hnext, ?_, ?_, ?_⟩
  · intro q hq
    exact altRes_side f.fwd.dirId f.rev.dirId hab halt f.nextPid q hq
  · exact altRes_nodup f.fwd.dirId f.rev.dirId hab halt f.nextPid
  · intro k hk
    exact altRes_mem f.fwd.dirId f.rev.dirId hab halt f.nextPid k hk

theorem alternating_exactly_two_per_epoch_witness :
    (Alt initFlow.fwd.dirId initFlow.rev.dirId [0, 1] ∧
      initFlow.fwd.dirId ≠ initFlow.rev.dirId ∧
      initFlow.pending_connstate = none) ∧
    (∃ res f', initFlow.runCalls [0, 1] = Except.ok (res, f') ∧
      f'.nextPid = initFlow.nextPid + (([0, 1] : List Nat).length + 1) / 2 ∧
      (∀ q ∈ res, (q.2.side = Side.fwd ↔ q.1 = initFlow.fwd.dirId) ∧
        (q.2.side = Side.rev ↔ q.1 = initFlow.rev.dirId)) ∧
      (res.map Prod.snd).Nodup ∧
      (∀ k, k < ([0, 1] : List Nat).length / 2 →
        (initFlow.fwd.dirId, (⟨initFlow.nextPid + k, Side.fwd⟩ : ConnStatePlex)) ∈ res ∧
        (initFlow.rev.dirId, (⟨initFlow.nextPid + k, Side.rev⟩ : ConnStatePlex)) ∈ res)) :=
  ⟨⟨Alt.pair 0 1 [] (Or.inl ⟨rfl, rfl⟩) Alt.nil, by decide, rfl⟩,
    alternating_exactly_two_per_epoch initFlow [0, 1]
      (Alt.pair 0 1 [] (Or.inl ⟨rfl, rfl⟩) Alt.nil) (by decide) rfl⟩

/-- Invariant on a Flow's epoch bookkeeping: `old_states` is kept in strict
creation order (periods get strictly increasing pids from the allocation
counter), every retired pid is below the counter, and the current epoch is
younger than every retired epoch and below the counter. -/
def epochHistoryOK (f : Flow) : Prop :=
  f.old_states.Pairwise (fun p q => p.pid < q.pid) ∧
  (∀ p ∈ f.old_states, p.pid < f.nextPid) ∧
  (∀ c, f.connstate = some c →
    (∀ p ∈ f.old_states, p.pid < c.pid) ∧ c.pid < f.nextPid)

lemma epochHistoryOK_initFlow : epochHistoryOK initFlow := by
  refine ⟨by simp [initFlow], by simp [initFlow], ?_⟩
  intro c hc
  simp only [initFlow] at hc
  injection hc with h
  subst h
  exact ⟨by simp [initFlow], by decide⟩

lemma pairwise_pid_nodup {l : List ConnStatePeriod}
    (h : l.Pairwise (fun p q => p.pid < q.pid)) : l.Nodup :=
  h.imp (fun hpq he => absurd (congrArg ConnStatePeriod.pid he) (Nat.ne_of_lt hpq))

/-- C6: every superseded epoch is appended to `old_states` (exactly when a
current epoch existed at the start of a transition), `old_states` only ever
grows — a successful call extends it, never removes from it — and the
history invariant is preserved: retired periods stay in creation order and
without duplicates, so each superseded period appears exactly once.  (The
period values themselves are immutable data; no Flow operation rewrites an
element of `old_states`.)  The invariant holds at construction. -/
theorem retirement_completeness (f : Flow) (d : Nat) (r : ConnStatePlex) (f' : Flow)
    (h : f.next_connstate d = Except.ok (r, f'))
    (hinv : epochHistoryOK f) :
    (∃ t, f'.old_states = f.old_states ++ t) ∧
    (f.pending_connstate = none → ∀ c, f.connstate = some c →
      f'.old_states = f.old_states ++ [c]) ∧
    epochHistoryOK f' ∧
    f'.old_states.Nodup ∧
    (∀ g, Flow.init = Except.ok g → epochHistoryOK g) := by
  have hinit : ∀ g, Flow.init = Except.ok g → epochHistoryOK g := by
    intro g hg
    rw [init_spec] at hg
    injection hg with h2
    subst h2
    exact epochHistoryOK_initFlow
  by_cases hd : d = f.fwd.dirId ∨ d = f.rev.dirId
  · cases hp : f.pending_connstate with
    | some p =>
        rw [next_connstate_pending f d p hd hp] at h
        simp only [Except.ok.injEq, Prod.mk.injEq] at h
        obtain ⟨-, h2⟩ := h
        subst h2
        refine ⟨⟨[], by simp [clearPending]⟩, ?_, hinv, pairwise_pid_nodup hinv.1, hinit⟩
        intro hpn
        exact absurd hpn (by simp)
    | none =>
        rw [next_connstate_fresh f d hd hp] at h
        simp only [Except.ok.injEq, Prod.mk.injEq] at h
        obtain ⟨-, h2⟩ := h
        subst h2
        obtain ⟨hpw, hbound, hcur⟩ := hinv
        cases hc : f.connstate with
        | none =>
            refine ⟨⟨[], by simp [freshStep, hc]⟩, ?_, ?_, ?_, hinit⟩
            · intro _ c hcontra
              exact absurd hcontra (by simp)
            · refine ⟨?_, ?_, ?_⟩
              · simpa [freshStep, hc] using hpw
              · intro p hp2
                simp only [freshStep, hc] at hp2 ⊢
                have := hbound p hp2
                omega
              · intro c hc2
                simp only [freshStep, hc] at hc2
                injection hc2 with h3
                subst h3
                constructor
                · intro p hp2
                  simp only [freshStep, hc] at hp2
                  have := hbound p hp2
                  simpa using this
                · simp [freshStep]
            · have : (freshStep f).old_states = f.old_states := by simp [freshStep, hc]
              rw [this]
              exact pairwise_pid_nodup hpw
        | some c0 =>
            have hco := hcur c0 hc
            have holds : (freshStep f).old_states = f.old_states ++ [c0] := by
              simp [freshStep, hc]
            have hpw' : ((freshStep f).old_states).Pairwise (fun p q => p.pid < q.pid) := by
              rw [holds, List.pairwise_append]
              exact ⟨hpw, by simp, by simpa using hco.1⟩
            refine ⟨⟨[c0], holds⟩, fun _ c hc2 => ?_, ⟨hpw', ?_, ?_⟩, ?_, hinit⟩
            · injection hc2 with h3
              subst h3
              exact holds
            · intro p hp2
              rw [holds] at hp2
              simp only [List.mem_append, List.mem_singleton] at hp2
              simp only [freshStep]
              rcases hp2 with hp2 | hp2
              · have := hbound p hp2
                omega
              · subst hp2
                omega
            · intro c hc2
              simp only [freshStep] at hc2
              injection hc2 with h3
              subst h3
              constructor
              · intro p hp2
                rw [holds] at hp2
                simp only [List.mem_append, List.mem_singleton] at hp2
                simp only [freshStep]
                rcases hp2 with hp2 | hp2
                · have := hbound p hp2
                  omega
                · subst hp2
                  have := hco.2
                  simpa using this
              · simp [freshStep]
            · exact pairwise_pid_nodup hpw'
  · rw [next_connstate_unowned f d hd] at h
    exact absurd h (by simp)

theorem retirement_completeness_witness :
    (initFlow.next_connstate 0 =
        Except.ok (⟨1, Side.fwd⟩, freshStep initFlow) ∧
      epochHistoryOK initFlow) ∧
    ((∃ t, (freshStep initFlow).old_states = initFlow.old_states ++ t) ∧
      (initFlow.pending_connstate = none → ∀ c, initFlow.connstate = some c →
        (freshStep initFlow).old_states = initFlow.old_states ++ [c]) ∧
      epochHistoryOK (freshStep initFlow) ∧
      (freshStep initFlow).old_states.Nodup ∧
      (∀ g, Flow.init = Except.ok g → epochHistoryOK g)) :=
  ⟨⟨rfl, epochHistoryOK_initFlow⟩,
    retirement_completeness initFlow 0 ⟨1, Side.fwd⟩ (freshStep initFlow) rfl
      epochHistoryOK_initFlow⟩

lemma right_plex_period (f : Flow) (d : Nat) (p : ConnStatePeriod) :
    (right_plex f d p).period = p.pid := by
  unfold right_plex
  split <;> rfl

lemma next_connstate_ok_bound (f : Flow) (d k : Nat) (r : ConnStatePlex) (f1 : Flow)
    (h : f.next_connstate d = Except.ok (r, f1))
    (hpend : ∀ p, f.pending_connstate = some p → k ≤ p.pid)
    (hnext : k ≤ f.nextPid) :
    k ≤ r.period ∧ (∀ p, f1.pending_connstate = some p → k ≤ p.pid) ∧
      k ≤ f1.nextPid := by
  by_cases hd : d = f.fwd.dirId ∨ d = f.rev.dirId
  · cases hp : f.pending_connstate with
    | some p =>
        rw [next_connstate_pending f d p hd hp] at h
        simp only [Except.ok.injEq, Prod.mk.injEq] at h
        obtain ⟨h1, h2⟩ := h
        subst h2
        refine ⟨?_, ?_, hnext⟩
        · rw [← h1, right_plex_period]
          exact hpend p hp
        · intro p' hp'
          simp [clearPending] at hp'
    | none =>
        rw [next_connstate_fresh f d hd hp] at h
        simp only [Except.ok.injEq, Prod.mk.injEq] at h
        obtain ⟨h1, h2⟩ := h
        subst h2
        refine ⟨?_, ?_, ?_⟩
        · rw [← h1, right_plex_period]
          exact hnext
        · intro p' hp'
          simp only [freshStep] at hp'
          injection hp' with h3
          subst h3
          simpa using hnext
        · simp only [freshStep]
          omega
  · rw [next_connstate_unowned f d hd] at h
    exact absurd h (by simp)

lemma runCalls_period_lb : ∀ (ds : List Nat) (f : Flow) (k : Nat),
    (∀ p, f.pending_connstate = some p → k ≤ p.pid) → k ≤ f.nextPid →
    ∀ res f', f.runCalls ds = Except.ok (res, f') →
    ∀ q ∈ res, k ≤ q.2.period := by
  intro ds
  induction ds with
  | nil =>
      intro f k hpend hnext res f' h q hq
      simp only [Flow.runCalls, Except.ok.injEq, Prod.mk.injEq] at h
      obtain ⟨h1, -⟩ := h
      subst h1
      simp at hq
  | cons d ds ih =>
      intro f k hpend hnext res f' h q hq
      cases hnc : f.next_connstate d with
      | error e =>
          rw [Flow.runCalls] at h
          simp only [hnc] at h
          exact absurd h (by simp)
      | ok pr =>
          obtain ⟨r, f1⟩ := pr
          rw [Flow.runCalls] at h
          simp only [hnc] at h
          cases hrc : f1.runCalls ds with
          | error e =>
              simp only [hrc] at h
              exact absurd h (by simp)
          | ok pr2 =>
              obtain ⟨res1, f2⟩ := pr2
              simp only [hrc, Except.ok.injEq, Prod.mk.injEq] at h
              obtain ⟨h1, -⟩ := h
              subst h1
              obtain ⟨hr, hpend1, hnext1⟩ :=
                next_connstate_ok_bound f d k r f1 hnc hpend hnext
              rcases List.mem_cons.mp hq with hq1 | hq1
              · subst hq1
                exact hr
              · exact ih f1 k hpend1 hnext1 res1 f2 hrc q hq1

/-- C8 counterexample: a third un-paired call — the same Direction (id 0)
calling again right after its own first call of a transition, before the
other Direction has claimed its half — does NOT fail: from `initFlow`,
direction 0's first call succeeds and leaves the pending slot occupied, and
direction 0's immediate second call also returns `Except.ok` (the pending
plex, with the slot cleared) instead of an assertion failure. -/
theorem unpaired_third_call_not_rejected :
    initFlow.next_connstate 0 = Except.ok (⟨1, Side.fwd⟩, freshStep initFlow) ∧
    (freshStep initFlow).pending_connstate = some ⟨1, some 0⟩ ∧
    (freshStep initFlow).next_connstate 0 =
      Except.ok (⟨1, Side.fwd⟩, clearPending (freshStep initFlow)) :=
  ⟨rfl, rfl, rfl⟩

/-- C8 amended: the code enforces only the direction-membership
precondition.  With a transition pending, a call from an unknown direction
fails the assertion, but an un-paired repeat call from an owned direction —
including the same direction that opened the transition — is silently
tolerated: it takes the pending branch, returns that direction's plex of
the pending period, and clears the pending slot. -/
theorem unpaired_call_policy (f : Flow) (d : Nat) (p : ConnStatePeriod)
    (hp : f.pending_connstate = some p) :
    (¬(d = f.fwd.dirId ∨ d = f.rev.dirId) →
      f.next_connstate d = Except.error "AssertionError") ∧
    ((d = f.fwd.dirId ∨ d = f.rev.dirId) →
      f.next_connstate d = Except.ok (right_plex f d p, clearPending f)) :=
  ⟨fun hd => next_connstate_unowned f d hd,
    fun hd => next_connstate_pending f d p hd hp⟩

theorem unpaired_call_policy_witness :
    midFlow.pending_connstate = some ⟨0, none⟩ ∧
    ((¬(0 = midFlow.fwd.dirId ∨ 0 = midFlow.rev.dirId) →
      midFlow.next_connstate 0 = Except.error "AssertionError") ∧
    ((0 = midFlow.fwd.dirId ∨ 0 = midFlow.rev.dirId) →
      midFlow.next_connstate 0 =
        Except.ok (right_plex midFlow 0 ⟨0, none⟩, clearPending midFlow))) :=
  ⟨rfl, unpaired_call_policy midFlow 0 ⟨0, none⟩ rfl⟩

/-- C10: if the same owned Direction calls `next_connstate` twice in a row
(no intervening call by the other Direction), the second call completes
without error, returns the very same `ConnStatePlex` that the first call
returned, and clears the pending slot; the other Direction's next call then
opens a brand-new `ConnStatePeriod`, and no later call in any continuation
ever returns a plex of the skipped period — the other Direction never
receives its half of that epoch. -/
theorem double_call_skips_epoch (f : Flow) (d : Nat)
    (hd : d = f.fwd.dirId ∨ d = f.rev.dirId)
    (hp : f.pending_connstate = none) :
    ∃ r1 f2, f.next_connstate d = Except.ok (r1, freshStep f) ∧
      (freshStep f).next_connstate d = Except.ok (r1, f2) ∧
      f2.pending_connstate = none ∧
      r1.period = f.nextPid ∧
      (∀ e, (e = f.fwd.dirId ∨ e = f.rev.dirId) →
        ∃ r3 f3, f2.next_connstate e = Except.ok (r3, f3) ∧
          r3.period ≠ r1.period) ∧
      (∀ ds res f4, f2.runCalls ds = Except.ok (res, f4) →
        ∀ q ∈ res, q.2.period ≠ r1.period) := by
  refine ⟨right_plex f d ⟨f.nextPid, f.connstate.map ConnStatePeriod.pid⟩,
    clearPending (freshStep f),
    next_connstate_fresh f d hd hp, ?_, rfl, right_plex_period f d _, ?_, ?_⟩
  · have h2 := next_connstate_pending (freshStep f) d
      ⟨f.nextPid, f.connstate.map ConnStatePeriod.pid⟩ hd rfl
    exact h2
  · intro e he
    have h3 := next_connstate_fresh (clearPending (freshStep f)) e he rfl
    refine ⟨_, _, h3, ?_⟩
    rw [right_plex_period, right_plex_period]
    show f.nextPid + 1 ≠ f.nextPid
    omega
  · intro ds res f4 hrun q hq
    have hlb := runCalls_period_lb ds (clearPending (freshStep f)) (f.nextPid + 1)
      (fun p hp2 => by simp [clearPending] at hp2) (by simp [clearPending, freshStep])
      res f4 hrun q hq
    rw [right_plex_period]
    show q.2.period ≠ f.nextPid
    omega

theorem double_call_skips_epoch_witness :
    ((0 = initFlow.fwd.dirId ∨ 0 = initFlow.rev.dirId) ∧
      initFlow.pending_connstate = none) ∧
    (∃ r1 f2, initFlow.next_connstate 0 = Except.ok (r1, freshStep initFlow) ∧
      (freshStep initFlow).next_connstate 0 = Except.ok (r1, f2) ∧
      f2.pending_connstate = none ∧
      r1.period = initFlow.nextPid ∧
      (∀ e, (e = initFlow.fwd.dirId ∨ e = initFlow.rev.dirId) →
        ∃ r3 f3, f2.next_connstate e = Except.ok (r3, f3) ∧
          r3.period ≠ r1.period) ∧
      (∀ ds res f4, f2.runCalls ds = Except.ok (res, f4) →
        ∀ q ∈ res, q.2.period ≠ r1.period)) :=
  ⟨⟨Or.inl rfl, rfl⟩, double_call_skips_epoch initFlow 0 (Or.inl rfl) rfl⟩

end Pcap2har
